import Mathlib

/-!
Verification of the SSE stream decoder of `wrangleai-node`
(`src/streaming.ts`, `StreamChatCompletion`).

The embedding models, at the level of byte lists and character lists:
  * the WHATWG incremental UTF-8 decoder used by `new TextDecoder('utf-8')`
    with `decode(chunk, { stream: true })` (state machine with code point /
    bytes-needed / bytes-seen / lower / upper boundary, U+FFFD replacement
    on error, and removal of a leading byte-order mark);
  * `buffer.split('\n')` line framing with the last partial line kept in
    the buffer (`lines.pop()`);
  * `line.trim()` with the JavaScript whitespace set;
  * the `'data: '` prefix test, `slice(6)`, and the `'[DONE]'` sentinel;
  * `JSON.parse` as a recursive-descent parser producing a `Json` value
    (strings are represented as their UTF-16 code-unit sequences, numbers
    by their lexeme);
  * the async-generator loop `for await (const chunk of responseStream)`
    as a fold over a list of source items (delivered byte chunks, possibly
    followed by an abnormal transport failure), yielding the trace of
    emitted records and `console.warn` parse-failure warnings plus a
    terminal outcome.
-/

/-- State of the WHATWG UTF-8 decoder between bytes: the code point being
assembled, how many continuation bytes are still needed / already seen, and
the admissible range for the next continuation byte. -/
structure Utf8State where
  codePoint : Nat
  bytesNeeded : Nat
  bytesSeen : Nat
  lower : Nat
  upper : Nat
deriving Repr, DecidableEq

/-- Fresh decoder state. -/
def Utf8State.init : Utf8State := ⟨0, 0, 0, 0x80, 0xBF⟩

/-- Handle one byte when no multi-byte sequence is in progress
(WHATWG UTF-8 decoder, bytes-needed = 0 case). -/
def decodeLead (b : Nat) : Utf8State × List Char :=
  if b < 0x80 then (Utf8State.init, [Char.ofNat b])
  else if b < 0xC2 then (Utf8State.init, ['\uFFFD'])
  else if b < 0xE0 then (⟨b % 32, 1, 0, 0x80, 0xBF⟩, [])
  else if b < 0xF0 then
    (⟨b % 16, 2, 0, if b = 0xE0 then 0xA0 else 0x80,
      if b = 0xED then 0x9F else 0xBF⟩, [])
  else if b < 0xF5 then
    (⟨b % 8, 3, 0, if b = 0xF0 then 0x90 else 0x80,
      if b = 0xF4 then 0x8F else 0xBF⟩, [])
  else (Utf8State.init, ['\uFFFD'])

/-- One step of the WHATWG UTF-8 decoder: feed byte `b` in state `s`,
producing the next state and the emitted characters (an out-of-range
continuation byte emits U+FFFD and is then reprocessed as a lead byte). -/
def decodeByte (s : Utf8State) (b : Nat) : Utf8State × List Char :=
  if s.bytesNeeded = 0 then decodeLead b
  else if s.lower ≤ b ∧ b ≤ s.upper then
    (if s.bytesSeen + 1 = s.bytesNeeded then
      (Utf8State.init, [Char.ofNat (s.codePoint * 64 + b % 64)])
    else
      (⟨s.codePoint * 64 + b % 64, s.bytesNeeded, s.bytesSeen + 1, 0x80, 0xBF⟩, []))
  else ((decodeLead b).1, '\uFFFD' :: (decodeLead b).2)

/-- Feed a whole byte chunk to the decoder; an incomplete trailing sequence
stays in the state (this is `decode(chunk, { stream: true })`). -/
def decodeChunk : Utf8State → List Nat → Utf8State × List Char
  | u, [] => (u, [])
  | u, b :: bs =>
    ((decodeChunk (decodeByte u b).1 bs).1,
      (decodeByte u b).2 ++ (decodeChunk (decodeByte u b).1 bs).2)

/-- Removal of a leading byte-order mark: `TextDecoder` with `ignoreBOM`
unset drops the first decoded code point of the stream when it is U+FEFF.
The flag records whether the first code point has already been seen. -/
def stripBom (bomSeen : Bool) (cs : List Char) : Bool × List Char :=
  if bomSeen then (true, cs)
  else
    match cs with
    | [] => (false, [])
    | c :: rest => (true, if c = '\uFEFF' then rest else c :: rest)

/-- Standard UTF-8 encoding of one character (used to build the byte
streams that theorems feed to the decoder). -/
def encodeChar (c : Char) : List Nat :=
  let n := c.toNat
  if n < 0x80 then [n]
  else if n < 0x800 then [0xC0 + n / 64, 0x80 + n % 64]
  else if n < 0x10000 then
    [0xE0 + n / 4096, 0x80 + (n / 64) % 64, 0x80 + n % 64]
  else
    [0xF0 + n / 262144, 0x80 + (n / 4096) % 64, 0x80 + (n / 64) % 64, 0x80 + n % 64]

/-- UTF-8 encoding of a character sequence. -/
def utf8Encode (s : List Char) : List Nat := (s.map encodeChar).flatten

/-- The JavaScript `String.prototype.trim` whitespace set (WhiteSpace and
LineTerminator code points). -/
def isJsWs (c : Char) : Bool := decide (
  c.toNat = 0x9 ∨ c.toNat = 0xA ∨ c.toNat = 0xB ∨ c.toNat = 0xC ∨ c.toNat = 0xD ∨
  c.toNat = 0x20 ∨ c.toNat = 0xA0 ∨ c.toNat = 0x1680 ∨
  (0x2000 ≤ c.toNat ∧ c.toNat ≤ 0x200A) ∨
  c.toNat = 0x2028 ∨ c.toNat = 0x2029 ∨ c.toNat = 0x202F ∨ c.toNat = 0x205F ∨
  c.toNat = 0x3000 ∨ c.toNat = 0xFEFF)

/-- `line.trim()`: drop JavaScript whitespace from both ends. -/
def jsTrim (l : List Char) : List Char :=
  ((l.dropWhile isJsWs).reverse.dropWhile isJsWs).reverse

/-- `s.split('\n')`: the list of parts separated by newline characters
(always non-empty; the last part is the text after the last newline). -/
def splitNl : List Char → List (List Char)
  | [] => [[]]
  | c :: cs =>
    if c = '\n' then [] :: splitNl cs
    else
      match splitNl cs with
      | [] => [[c]]
      | p :: ps => (c :: p) :: ps

/-- All parts but the last: the complete lines handed to the loop body
(`lines` after `lines.pop()`). -/
def initParts : List (List Char) → List (List Char)
  | [] => []
  | [_] => []
  | p :: ps => p :: initParts ps

/-- The last part: the new pending partial line (`lines.pop() || ''`). -/
def lastPart : List (List Char) → List Char
  | [] => []
  | [p] => p
  | _ :: ps => lastPart ps

/-- `line.startsWith(px)` on character lists. -/
def beginsWith : List Char → List Char → Bool
  | [], _ => true
  | _ :: _, [] => false
  | p :: ps, c :: cs => if p = c then beginsWith ps cs else false

/-- The literal `'data: '` field marker. -/
def dataHeader : List Char := ['d', 'a', 't', 'a', ':', ' ']

/-- The literal `'[DONE]'` termination sentinel. -/
def doneSentinel : List Char := ['[', 'D', 'O', 'N', 'E', ']']

/-- JSON value as produced by `JSON.parse`: strings are kept as UTF-16
code-unit sequences, numbers by their source lexeme, objects as ordered
member lists. -/
inductive Json where
  | null : Json
  | bool (b : Bool) : Json
  | num (lexeme : List Char) : Json
  | str (units : List Nat) : Json
  | arr (elems : List Json) : Json
  | obj (members : List (List Nat × Json)) : Json
deriving Repr

/-- The whitespace accepted around JSON tokens by `JSON.parse`. -/
def skipJsonWs (l : List Char) : List Char :=
  l.dropWhile (fun c => decide (c = ' ' ∨ c = '\t' ∨ c = '\n' ∨ c = '\r'))

/-- Decimal digit test. -/
def isDigitC (c : Char) : Bool := decide ('0' ≤ c ∧ c ≤ '9')

/-- Value of one hexadecimal digit. -/
def hexVal (c : Char) : Option Nat :=
  if '0' ≤ c ∧ c ≤ '9' then some (c.toNat - '0'.toNat)
  else if 'a' ≤ c ∧ c ≤ 'f' then some (c.toNat - 'a'.toNat + 10)
  else if 'A' ≤ c ∧ c ≤ 'F' then some (c.toNat - 'A'.toNat + 10)
  else none

/-- Four hexadecimal digits of a `\uXXXX` escape. -/
def parseHex4 : List Char → Option (Nat × List Char)
  | c1 :: c2 :: c3 :: c4 :: rest =>
    match hexVal c1, hexVal c2, hexVal c3, hexVal c4 with
    | some a, some b, some c, some d => some (((a * 16 + b) * 16 + c) * 16 + d, rest)
    | _, _, _, _ => none
  | _ => none

/-- UTF-16 code units of one character. -/
def charUnits (c : Char) : List Nat :=
  if c.toNat < 0x10000 then [c.toNat]
  else [0xD800 + (c.toNat - 0x10000) / 1024, 0xDC00 + (c.toNat - 0x10000) % 1024]

/-- Prepend a code unit to a string-parse result. -/
def consUnit (n : Nat) (o : Option (List Nat × List Char)) : Option (List Nat × List Char) :=
  match o with
  | some (us, r) => some (n :: us, r)
  | none => none

/-- Body of a JSON string after the opening quote: characters and escape
sequences until the closing quote; unescaped control characters are
rejected, exactly as in `JSON.parse`. -/
def parseStringBody : Nat → List Char → Option (List Nat × List Char)
  | 0, _ => none
  | _ + 1, [] => none
  | fuel + 1, c :: rest =>
    if c = '"' then some ([], rest)
    else if c = '\\' then
      match rest with
      | [] => none
      | e :: r2 =>
        if e = '"' then consUnit 0x22 (parseStringBody fuel r2)
        else if e = '\\' then consUnit 0x5C (parseStringBody fuel r2)
        else if e = '/' then consUnit 0x2F (parseStringBody fuel r2)
        else if e = 'b' then consUnit 0x8 (parseStringBody fuel r2)
        else if e = 'f' then consUnit 0xC (parseStringBody fuel r2)
        else if e = 'n' then consUnit 0xA (parseStringBody fuel r2)
        else if e = 'r' then consUnit 0xD (parseStringBody fuel r2)
        else if e = 't' then consUnit 0x9 (parseStringBody fuel r2)
        else if e = 'u' then
          match parseHex4 r2 with
          | some (n, r3) => consUnit n (parseStringBody fuel r3)
          | none => none
        else none
    else if c.toNat < 0x20 then none
    else
      match parseStringBody fuel rest with
      | some (us, r2) => some (charUnits c ++ us, r2)
      | none => none

/-- Integer part of a JSON number: `0`, or a nonzero digit followed by
digits (leading zeros rejected). -/
def parseIntPart : List Char → Option (List Char × List Char)
  | [] => none
  | c :: r =>
    if c = '0' then some (['0'], r)
    else if isDigitC c then some (c :: r.takeWhile isDigitC, r.dropWhile isDigitC)
    else none

/-- Optional fraction part `.digits`. -/
def parseFracPart : List Char → Option (List Char × List Char)
  | '.' :: r =>
    match r.takeWhile isDigitC with
    | [] => none
    | ds => some ('.' :: ds, r.dropWhile isDigitC)
  | l => some ([], l)

/-- Optional exponent part `e|E [+|-] digits`. -/
def parseExpPart : List Char → Option (List Char × List Char)
  | [] => some ([], [])
  | c :: r =>
    if c = 'e' ∨ c = 'E' then
      match r with
      | [] => none
      | s :: r2 =>
        if s = '+' ∨ s = '-' then
          match r2.takeWhile isDigitC with
          | [] => none
          | ds => some (c :: s :: ds, r2.dropWhile isDigitC)
        else
          match r.takeWhile isDigitC with
          | [] => none
          | ds => some (c :: ds, r.dropWhile isDigitC)
    else some ([], c :: r)

/-- A JSON number literal; the lexeme is kept. -/
def parseNumber (l : List Char) : Option (List Char × List Char) :=
  let sl : List Char × List Char :=
    match l with
    | '-' :: r => (['-'], r)
    | _ => ([], l)
  match parseIntPart sl.2 with
  | none => none
  | some (ip, l2) =>
    match parseFracPart l2 with
    | none => none
    | some (fp, l3) =>
      match parseExpPart l3 with
      | none => none
      | some (ep, l4) => some (sl.1 ++ ip ++ fp ++ ep, l4)

mutual

/-- One JSON value, preceded by optional whitespace (`JSON.parse` grammar).
The fuel argument only bounds nesting; `jsonParse` supplies enough. -/
def parseValue : Nat → List Char → Option (Json × List Char)
  | 0, _ => none
  | fuel + 1, l =>
    match skipJsonWs l with
    | [] => none
    | c :: r =>
      if c = '\x7b' then
        match skipJsonWs r with
        | '\x7d' :: r2 => some (Json.obj [], r2)
        | _ =>
          match parseMembers fuel r with
          | some (ms, r2) => some (Json.obj ms, r2)
          | none => none
      else if c = '[' then
        match skipJsonWs r with
        | ']' :: r2 => some (Json.arr [], r2)
        | _ =>
          match parseElems fuel r with
          | some (vs, r2) => some (Json.arr vs, r2)
          | none => none
      else if c = '"' then
        match parseStringBody (r.length + 1) r with
        | some (us, r2) => some (Json.str us, r2)
        | none => none
      else if c = 't' then
        match r with
        | 'r' :: 'u' :: 'e' :: r2 => some (Json.bool true, r2)
        | _ => none
      else if c = 'f' then
        match r with
        | 'a' :: 'l' :: 's' :: 'e' :: r2 => some (Json.bool false, r2)
        | _ => none
      else if c = 'n' then
        match r with
        | 'u' :: 'l' :: 'l' :: r2 => some (Json.null, r2)
        | _ => none
      else if c = '-' ∨ isDigitC c then
        match parseNumber (c :: r) with
        | some (lx, r2) => some (Json.num lx, r2)
        | none => none
      else none

/-- Comma-separated array elements up to the closing bracket. -/
def parseElems : Nat → List Char → Option (List Json × List Char)
  | 0, _ => none
  | fuel + 1, l =>
    match parseValue fuel l with
    | none => none
    | some (v, r) =>
      match skipJsonWs r with
      | ',' :: r2 =>
        match parseElems fuel r2 with
        | some (vs, r3) => some (v :: vs, r3)
        | none => none
      | ']' :: r2 => some ([v], r2)
      | _ => none

/-- Comma-separated object members up to the closing brace. -/
def parseMembers : Nat → List Char → Option (List (List Nat × Json) × List Char)
  | 0, _ => none
  | fuel + 1, l =>
    match skipJsonWs l with
    | '"' :: r =>
      match parseStringBody (r.length + 1) r with
      | some (k, r2) =>
        match skipJsonWs r2 with
        | ':' :: r3 =>
          match parseValue fuel r3 with
          | some (v, r4) =>
            match skipJsonWs r4 with
            | ',' :: r5 =>
              match parseMembers fuel r5 with
              | some (ms, r6) => some ((k, v) :: ms, r6)
              | none => none
            | '\x7d' :: r5 => some ([(k, v)], r5)
            | _ => none
          | none => none
        | _ => none
      | none => none
    | _ => none

end

/-- `JSON.parse(data)`: one value, with only whitespace allowed after it.
Returns `none` exactly when `JSON.parse` would throw. -/
def jsonParse (l : List Char) : Option Json :=
  match parseValue (l.length + 1) l with
  | some (v, r) => if skipJsonWs r = [] then some v else none
  | none => none

/-- Observable output of the generator: a yielded record, or the
`console.warn` emitted when a payload fails to parse. -/
inductive Ev where
  | record (j : Json) : Ev
  | warn (payload : List Char) : Ev
deriving Repr

/-- The `for (const line of lines)` body applied to a list of complete
lines: trim, drop empty lines, recognize the `'data: '` marker, stop at
the `'[DONE]'` sentinel (second component `true`), otherwise parse and
yield or warn. -/
def processLines : List (List Char) → List Ev × Bool
  | [] => ([], false)
  | line :: rest =>
    if jsTrim line = [] then processLines rest
    else if beginsWith dataHeader (jsTrim line) then
      if (jsTrim line).drop 6 = doneSentinel then ([], true)
      else
        match jsonParse ((jsTrim line).drop 6) with
        | some j =>
          (Ev.record j :: (processLines rest).1, (processLines rest).2)
        | none =>
          (Ev.warn ((jsTrim line).drop 6) :: (processLines rest).1, (processLines rest).2)
    else processLines rest

/-- Generator state between chunk arrivals: the decoder state, the
BOM-seen flag, and the pending partial line (`buffer`); or `finished`
after return on the sentinel. -/
inductive SState where
  | running (u : Utf8State) (bomSeen : Bool) (buf : List Char) : SState
  | finished : SState
deriving Repr, DecidableEq

/-- One iteration of `for await (const chunk of responseStream)`: decode
the chunk, append to the buffer, split into lines keeping the last partial
line, and run the line loop. -/
def stepChunk : SState → List Nat → SState × List Ev
  | SState.finished, _ => (SState.finished, [])
  | SState.running u bom buf, bytes =>
    let dec := decodeChunk u bytes
    let sb := stripBom bom dec.2
    let parts := splitNl (buf ++ sb.2)
    let pl := processLines (initParts parts)
    (if pl.2 then SState.finished else SState.running dec.1 sb.1 (lastPart parts), pl.1)

/-- What the byte source delivers on one pull: a byte chunk, or an
abnormal transport failure (the async iterator throwing). -/
inductive SrcItem where
  | chunk (bytes : List Nat) : SrcItem
  | fail : SrcItem

/-- How the sequence ends for the consumer: clean end, or a
stream-terminating error. -/
inductive Outcome where
  | ok : Outcome
  | error : Outcome
deriving Repr, DecidableEq

/-- Drive the generator over the source: each chunk is processed by
`stepChunk`; `return` on the sentinel ends the sequence cleanly without
pulling further items; a transport failure propagates as an error after
the events already emitted. -/
def runSrc : SState → List SrcItem → List Ev × Outcome
  | _, [] => ([], Outcome.ok)
  | _, SrcItem.fail :: _ => ([], Outcome.error)
  | s, SrcItem.chunk bs :: rest =>
    if (stepChunk s bs).1 = SState.finished then ((stepChunk s bs).2, Outcome.ok)
    else
      ((stepChunk s bs).2 ++ (runSrc (stepChunk s bs).1 rest).1,
        (runSrc (stepChunk s bs).1 rest).2)

/-- Initial generator state: fresh decoder, BOM not yet seen, empty
buffer. -/
def initState : SState := SState.running Utf8State.init false []

/-- `StreamChatCompletion`: the observable behaviour of the generator on
a given source — the ordered trace of yielded records and warnings, and
the terminal outcome. -/
def StreamChatCompletion (source : List SrcItem) : List Ev × Outcome :=
  runSrc initState source

/-- The records of an event trace, in order. -/
def recordsOf (es : List Ev) : List Json :=
  es.filterMap fun e =>
    match e with
    | Ev.record j => some j
    | Ev.warn _ => none

/-- Fold of `stepChunk` over a chunk list that also returns the final
state (used to phrase hypotheses about runs that have not terminated). -/
def runChunksSt : SState → List (List Nat) → SState × List Ev
  | s, [] => (s, [])
  | s, c :: cs =>
    ((runChunksSt (stepChunk s c).1 cs).1,
      (stepChunk s c).2 ++ (runChunksSt (stepChunk s c).1 cs).2)

/-- One `'data: '` line carrying payload `p`, newline-terminated. -/
def mkDataLine (p : List Char) : List Char := dataHeader ++ p ++ ['\n']

/-- A payload as it appears between `'data: '` and the newline on a
well-formed wire line: non-empty, free of newlines, and untouched by
trimming (no leading/trailing whitespace). -/
def goodPayload (p : List Char) : Prop :=
  p ≠ [] ∧ jsTrim p = p ∧ '\n' ∉ p

/-- The decoded text of a whole byte stream delivered at once. -/
def decodedText (bytes : List Nat) : List Char :=
  (stripBom false (decodeChunk Utf8State.init bytes).2).2

/-- The complete Lines of a byte stream, per the spec: newline-delimited
units of decoded text, a trailing partial line excluded. -/
def streamLines (bytes : List Nat) : List (List Char) :=
  initParts (splitNl (decodedText bytes))

/-- A Line carrying the data prefix, per the spec (after trimming). -/
def isDataLine (l : List Char) : Bool := beginsWith dataHeader (jsTrim l)

/-- The EventPayload of a data Line: the text after the prefix. -/
def linePayload (l : List Char) : List Char := (jsTrim l).drop 6

/-- Modelled from the spec's ordering invariant: the Records of a byte
stream are the successful parses of the EventPayloads of its data-prefixed
Lines, in order of appearance, cut off at the first sentinel payload. -/
def specRecords (bytes : List Nat) : List Json :=
  ((((streamLines bytes).filter isDataLine).map linePayload).takeWhile
    (fun p => decide (p ≠ doneSentinel))).filterMap jsonParse

/-! ### Decoder lemmas -/

theorem decodeChunk_append (u : Utf8State) (a b : List Nat) :
    decodeChunk u (a ++ b) =
      ((decodeChunk (decodeChunk u a).1 b).1,
        (decodeChunk u a).2 ++ (decodeChunk (decodeChunk u a).1 b).2) := by
  induction a generalizing u with
  | nil => simp [decodeChunk]
  | cons x xs ih => simp [decodeChunk, ih]

theorem decodeByte_init_lead (b : Nat) :
    decodeByte Utf8State.init b = decodeLead b := by
  unfold decodeByte Utf8State.init
  dsimp only
  rw [if_pos rfl]

theorem decodeLead_ascii (b : Nat) (h : b < 0x80) :
    decodeLead b = (Utf8State.init, [Char.ofNat b]) := by
  unfold decodeLead
  rw [if_pos h]

theorem decodeLead_two (b : Nat) (h1 : 0xC2 ≤ b) (h2 : b < 0xE0) :
    decodeLead b = (⟨b % 32, 1, 0, 0x80, 0xBF⟩, []) := by
  unfold decodeLead
  rw [if_neg (by omega), if_neg (by omega), if_pos h2]

theorem decodeLead_three (b : Nat) (h1 : 0xE0 ≤ b) (h2 : b < 0xF0) :
    decodeLead b = (⟨b % 16, 2, 0, if b = 0xE0 then 0xA0 else 0x80,
      if b = 0xED then 0x9F else 0xBF⟩, []) := by
  unfold decodeLead
  rw [if_neg (by omega), if_neg (by omega), if_neg (by omega), if_pos h2]

theorem decodeLead_four (b : Nat) (h1 : 0xF0 ≤ b) (h2 : b < 0xF5) :
    decodeLead b = (⟨b % 8, 3, 0, if b = 0xF0 then 0x90 else 0x80,
      if b = 0xF4 then 0x8F else 0xBF⟩, []) := by
  unfold decodeLead
  rw [if_neg (by omega), if_neg (by omega), if_neg (by omega), if_neg (by omega),
    if_pos h2]

theorem decodeByte_str_fin (cp need seen lo hi b : Nat) (h0 : ¬ need = 0)
    (hl : lo ≤ b) (hu : b ≤ hi) (hf : seen + 1 = need) :
    decodeByte ⟨cp, need, seen, lo, hi⟩ b
      = (Utf8State.init, [Char.ofNat (cp * 64 + b % 64)]) := by
  unfold decodeByte
  dsimp only
  rw [if_neg h0, if_pos ⟨hl, hu⟩, if_pos hf]

theorem decodeByte_str_more (cp need seen lo hi b : Nat) (h0 : ¬ need = 0)
    (hl : lo ≤ b) (hu : b ≤ hi) (hf : ¬ seen + 1 = need) :
    decodeByte ⟨cp, need, seen, lo, hi⟩ b
      = (⟨cp * 64 + b % 64, need, seen + 1, 0x80, 0xBF⟩, []) := by
  unfold decodeByte
  dsimp only
  rw [if_neg h0, if_pos ⟨hl, hu⟩, if_neg hf]

theorem decode_encodeChar (c : Char) :
    decodeChunk Utf8State.init (encodeChar c) = (Utf8State.init, [c]) := by
  have hv : c.toNat < 0xD800 ∨ (0xE000 ≤ c.toNat ∧ c.toNat < 0x110000) := c.valid
  have hofn : Char.ofNat c.toNat = c := Char.ofNat_toNat c
  by_cases h1 : c.toNat < 0x80
  · have he : encodeChar c = [c.toNat] := by
      unfold encodeChar
      dsimp only
      rw [if_pos h1]
    rw [he]
    simp [decodeChunk, decodeByte_init_lead, decodeLead_ascii _ h1, hofn]
  · by_cases h2 : c.toNat < 0x800
    · have he : encodeChar c = [0xC0 + c.toNat / 64, 0x80 + c.toNat % 64] := by
        unfold encodeChar
        dsimp only
        rw [if_neg h1, if_pos h2]
      have hm : (0xC0 + c.toNat / 64) % 32 = c.toNat / 64 := by omega
      have d1 : decodeByte Utf8State.init (0xC0 + c.toNat / 64)
          = (⟨c.toNat / 64, 1, 0, 0x80, 0xBF⟩, []) := by
        rw [decodeByte_init_lead, decodeLead_two _ (by omega) (by omega), hm]
      have hn : c.toNat / 64 * 64 + (0x80 + c.toNat % 64) % 64 = c.toNat := by omega
      have d2 : decodeByte ⟨c.toNat / 64, 1, 0, 0x80, 0xBF⟩ (0x80 + c.toNat % 64)
          = (Utf8State.init, [c]) := by
        rw [decodeByte_str_fin _ _ _ _ _ _ (by omega) (by omega) (by omega) rfl, hn, hofn]
      rw [he]
      simp only [decodeChunk, d1, d2, List.nil_append, List.append_nil, List.cons_append]
    · by_cases h3 : c.toNat < 0x10000
      · have he : encodeChar c
            = [0xE0 + c.toNat / 4096, 0x80 + c.toNat / 64 % 64, 0x80 + c.toNat % 64] := by
          unfold encodeChar
          dsimp only
          rw [if_neg h1, if_neg h2, if_pos h3]
        have hm : (0xE0 + c.toNat / 4096) % 16 = c.toNat / 4096 := by omega
        have d1 : decodeByte Utf8State.init (0xE0 + c.toNat / 4096)
            = (⟨c.toNat / 4096, 2, 0,
                if 0xE0 + c.toNat / 4096 = 0xE0 then 0xA0 else 0x80,
                if 0xE0 + c.toNat / 4096 = 0xED then 0x9F else 0xBF⟩, []) := by
          rw [decodeByte_init_lead, decodeLead_three _ (by omega) (by omega), hm]
        have hcp2 : c.toNat / 4096 * 64 + (0x80 + c.toNat / 64 % 64) % 64
            = c.toNat / 64 := by omega
        have d2 : decodeByte ⟨c.toNat / 4096, 2, 0,
              if 0xE0 + c.toNat / 4096 = 0xE0 then 0xA0 else 0x80,
              if 0xE0 + c.toNat / 4096 = 0xED then 0x9F else 0xBF⟩
            (0x80 + c.toNat / 64 % 64)
            = (⟨c.toNat / 64, 2, 1, 0x80, 0xBF⟩, []) := by
          rw [decodeByte_str_more _ _ _ _ _ _ (by omega)
            (by split_ifs <;> omega) (by split_ifs <;> omega) (by omega), hcp2]
        have hcp3 : c.toNat / 64 * 64 + (0x80 + c.toNat % 64) % 64 = c.toNat := by omega
        have d3 : decodeByte ⟨c.toNat / 64, 2, 1, 0x80, 0xBF⟩ (0x80 + c.toNat % 64)
            = (Utf8State.init, [c]) := by
          rw [decodeByte_str_fin _ _ _ _ _ _ (by omega) (by omega) (by omega) rfl,
            hcp3, hofn]
        rw [he]
        simp only [decodeChunk, d1, d2, d3, List.nil_append, List.append_nil,
          List.cons_append]
      · have h4 : c.toNat < 0x110000 := by omega
        have he : encodeChar c
            = [0xF0 + c.toNat / 262144, 0x80 + c.toNat / 4096 % 64,
                0x80 + c.toNat / 64 % 64, 0x80 + c.toNat % 64] := by
          unfold encodeChar
          dsimp only
          rw [if_neg h1, if_neg h2, if_neg h3]
        have hm : (0xF0 + c.toNat / 262144) % 8 = c.toNat / 262144 := by omega
        have d1 : decodeByte Utf8State.init (0xF0 + c.toNat / 262144)
            = (⟨c.toNat / 262144, 3, 0,
                if 0xF0 + c.toNat / 262144 = 0xF0 then 0x90 else 0x80,
                if 0xF0 + c.toNat / 262144 = 0xF4 then 0x8F else 0xBF⟩, []) := by
          rw [decodeByte_init_lead, decodeLead_four _ (by omega) (by omega), hm]
        have hcp2 : c.toNat / 262144 * 64 + (0x80 + c.toNat / 4096 % 64) % 64
            = c.toNat / 4096 := by omega
        have d2 : decodeByte ⟨c.toNat / 262144, 3, 0,
              if 0xF0 + c.toNat / 262144 = 0xF0 then 0x90 else 0x80,
              if 0xF0 + c.toNat / 262144 = 0xF4 then 0x8F else 0xBF⟩
            (0x80 + c.toNat / 4096 % 64)
            = (⟨c.toNat / 4096, 3, 1, 0x80, 0xBF⟩, []) := by
          rw [decodeByte_str_more _ _ _ _ _ _ (by omega)
            (by split_ifs <;> omega) (by split_ifs <;> omega) (by omega), hcp2]
        have hcp3 : c.toNat / 4096 * 64 + (0x80 + c.toNat / 64 % 64) % 64
            = c.toNat / 64 := by omega
        have d3 : decodeByte ⟨c.toNat / 4096, 3, 1, 0x80, 0xBF⟩
            (0x80 + c.toNat / 64 % 64)
            = (⟨c.toNat / 64, 3, 2, 0x80, 0xBF⟩, []) := by
          rw [decodeByte_str_more _ _ _ _ _ _ (by omega) (by omega) (by omega)
            (by omega), hcp3]
        have hcp4 : c.toNat / 64 * 64 + (0x80 + c.toNat % 64) % 64 = c.toNat := by omega
        have d4 : decodeByte ⟨c.toNat / 64, 3, 2, 0x80, 0xBF⟩ (0x80 + c.toNat % 64)
            = (Utf8State.init, [c]) := by
          rw [decodeByte_str_fin _ _ _ _ _ _ (by omega) (by omega) (by omega) rfl,
            hcp4, hofn]
        rw [he]
        simp only [decodeChunk, d1, d2, d3, d4, List.nil_append, List.append_nil,
          List.cons_append]

theorem utf8Encode_cons (c : Char) (s : List Char) :
    utf8Encode (c :: s) = encodeChar c ++ utf8Encode s := by
  simp [utf8Encode]

theorem utf8Encode_append (s t : List Char) :
    utf8Encode (s ++ t) = utf8Encode s ++ utf8Encode t := by
  simp [utf8Encode]

theorem decode_encode (s : List Char) :
    decodeChunk Utf8State.init (utf8Encode s) = (Utf8State.init, s) := by
  induction s with
  | nil => simp [utf8Encode, decodeChunk]
  | cons c t ih =>
    rw [utf8Encode_cons, decodeChunk_append, decode_encodeChar]
    simp [ih]

/-! ### Line-framing lemmas -/

theorem splitNl_ne_nil (l : List Char) : splitNl l ≠ [] := by
  cases l with
  | nil => simp [splitNl]
  | cons c cs =>
    rcases h : splitNl cs with _ | ⟨p, ps⟩ <;>
      by_cases hc : c = '\n' <;> simp [splitNl, hc, h]

theorem initParts_cons (p : List Char) (ps : List (List Char)) (h : ps ≠ []) :
    initParts (p :: ps) = p :: initParts ps := by
  cases ps with
  | nil => exact absurd rfl h
  | cons q qs => rfl

theorem lastPart_cons (p : List Char) (ps : List (List Char)) (h : ps ≠ []) :
    lastPart (p :: ps) = lastPart ps := by
  cases ps with
  | nil => exact absurd rfl h
  | cons q qs => rfl

theorem initParts_append (x y : List (List Char)) (h : y ≠ []) :
    initParts (x ++ y) = x ++ initParts y := by
  induction x with
  | nil => simp
  | cons p t ih =>
    have hne : t ++ y ≠ [] := by
      intro e
      rcases List.append_eq_nil.mp e with ⟨_, e2⟩
      exact h e2
    rw [List.cons_append, initParts_cons _ _ hne, ih, List.cons_append]

theorem lastPart_append (x y : List (List Char)) (h : y ≠ []) :
    lastPart (x ++ y) = lastPart y := by
  induction x with
  | nil => simp
  | cons p t ih =>
    have hne : t ++ y ≠ [] := by
      intro e
      rcases List.append_eq_nil.mp e with ⟨_, e2⟩
      exact h e2
    rw [List.cons_append, lastPart_cons _ _ hne, ih]

theorem splitNl_append (x y : List Char) :
    splitNl (x ++ y) = initParts (splitNl x) ++ splitNl (lastPart (splitNl x) ++ y) := by
  induction x with
  | nil => simp [splitNl, initParts, lastPart]
  | cons c t ih =>
    have hne := splitNl_ne_nil t
    by_cases hc : c = '\n'
    · subst hc
      rw [List.cons_append]
      show [] :: splitNl (t ++ y) = _
      rw [ih]
      show _ = initParts ([] :: splitNl t) ++ splitNl (lastPart ([] :: splitNl t) ++ y)
      rw [initParts_cons _ _ hne, lastPart_cons _ _ hne, List.cons_append]
    · rcases h : splitNl t with _ | ⟨p, ps⟩
      · exact absurd h hne
      · rcases hps : ps with _ | ⟨q, qs⟩
        · subst hps
          have h1 : splitNl (c :: t) = [c :: p] := by simp [splitNl, hc, h]
          have h2 : splitNl (t ++ y) = splitNl (p ++ y) := by
            rw [ih, h]
            simp [initParts, lastPart]
          have hne2 := splitNl_ne_nil (p ++ y)
          rcases h3 : splitNl (p ++ y) with _ | ⟨w, ws⟩
          · exact absurd h3 hne2
          · have lhs : splitNl (c :: t ++ y) = (c :: w) :: ws := by
              rw [List.cons_append]
              simp [splitNl, hc, h2, h3]
            rw [lhs, h1]
            simp [initParts, lastPart, splitNl, hc, h3]
        · subst hps
          have h1 : splitNl (c :: t) = (c :: p) :: q :: qs := by
            simp [splitNl, hc, h]
          have h2 : splitNl (t ++ y)
              = p :: (initParts (q :: qs) ++ splitNl (lastPart (q :: qs) ++ y)) := by
            rw [ih, h, initParts_cons p (q :: qs) (by simp),
              lastPart_cons p (q :: qs) (by simp), List.cons_append]
          have lhs : splitNl (c :: t ++ y)
              = (c :: p) :: (initParts (q :: qs) ++ splitNl (lastPart (q :: qs) ++ y)) := by
            rw [List.cons_append]
            simp [splitNl, hc, h2]
          rw [lhs, h1, initParts_cons (c :: p) (q :: qs) (by simp),
            lastPart_cons (c :: p) (q :: qs) (by simp), List.cons_append]

theorem splitNl_no_nl (l : List Char) (h : '\n' ∉ l) : splitNl l = [l] := by
  induction l with
  | nil => simp [splitNl]
  | cons c t ih =>
    have hc : c ≠ '\n' := fun e => h (by simp [e])
    have ht : '\n' ∉ t := fun m => h (List.mem_cons_of_mem _ m)
    simp [splitNl, hc, ih ht]

theorem splitNl_cons_line (l r : List Char) (h : '\n' ∉ l) :
    splitNl (l ++ '\n' :: r) = l :: splitNl r := by
  induction l with
  | nil => simp [splitNl]
  | cons c t ih =>
    have hc : c ≠ '\n' := fun e => h (by simp [e])
    have ht : '\n' ∉ t := fun m => h (List.mem_cons_of_mem _ m)
    rcases h2 : splitNl (t ++ '\n' :: r) with _ | ⟨p, ps⟩
    · exact absurd h2 (splitNl_ne_nil _)
    · have := ih ht
      rw [h2] at this
      cases this
      rw [List.cons_append]
      simp [splitNl, hc, h2]

theorem no_nl_lastPart (l : List Char) : '\n' ∉ lastPart (splitNl l) := by
  induction l with
  | nil => simp [splitNl, lastPart]
  | cons c t ih =>
    have hne := splitNl_ne_nil t
    by_cases hc : c = '\n'
    · subst hc
      show '\n' ∉ lastPart ([] :: splitNl t)
      rw [lastPart_cons _ _ hne]
      exact ih
    · rcases h : splitNl t with _ | ⟨p, ps⟩
      · exact absurd h hne
      · rcases hps : ps with _ | ⟨q, qs⟩
        · subst hps
          have h1 : splitNl (c :: t) = [c :: p] := by simp [splitNl, hc, h]
          rw [h1]
          have h4 : lastPart [c :: p] = c :: p := rfl
          rw [h4]
          intro hm
          rcases List.mem_cons.mp hm with e | hm2
          · exact hc e.symm
          · rw [h] at ih
            exact ih (by simpa [lastPart] using hm2)
        · subst hps
          have h1 : splitNl (c :: t) = (c :: p) :: q :: qs := by simp [splitNl, hc, h]
          rw [h1, lastPart_cons _ _ (by simp)]
          rw [h, lastPart_cons _ _ (by simp)] at ih
          exact ih

/-! ### BOM and line-loop lemmas -/

theorem stripBom_append (b : Bool) (x y : List Char) :
    stripBom b (x ++ y) =
      ((stripBom (stripBom b x).1 y).1,
        (stripBom b x).2 ++ (stripBom (stripBom b x).1 y).2) := by
  cases b with
  | true => simp [stripBom]
  | false =>
    cases x with
    | nil => simp [stripBom]
    | cons c t =>
      by_cases hc : c = '﻿' <;> simp [stripBom, hc]

theorem processLines_append (x y : List (List Char)) :
    processLines (x ++ y) =
      ((processLines x).1 ++ (if (processLines x).2 then [] else (processLines y).1),
        ((processLines x).2 || (processLines y).2)) := by
  induction x with
  | nil => simp [processLines]
  | cons l t ih =>
    by_cases h1 : jsTrim l = []
    · simp [processLines, h1, ih]
    · by_cases h2 : beginsWith dataHeader (jsTrim l) = true
      · by_cases h3 : (jsTrim l).drop 6 = doneSentinel
        · simp [processLines, h1, h2, h3]
        · rcases hj : jsonParse ((jsTrim l).drop 6) with _ | j <;>
            simp [processLines, h1, h2, h3, hj, ih]
      · have h2' : beginsWith dataHeader (jsTrim l) = false :=
          Bool.not_eq_true _ ▸ eq_false_of_ne_true h2
        simp [processLines, h1, h2', ih]

/-! ### Chunk-composition lemmas -/

theorem stepChunk_append (s : SState) (a b : List Nat) :
    stepChunk s (a ++ b) =
      ((stepChunk (stepChunk s a).1 b).1,
        (stepChunk s a).2 ++ (stepChunk (stepChunk s a).1 b).2) := by
  cases s with
  | finished => simp [stepChunk]
  | running u bom buf =>
    simp only [stepChunk]
    rw [decodeChunk_append u a b]
    dsimp only
    rw [stripBom_append bom (decodeChunk u a).2 (decodeChunk (decodeChunk u a).1 b).2]
    dsimp only
    rw [← List.append_assoc buf]
    rw [splitNl_append (buf ++ (stripBom bom (decodeChunk u a).2).2)]
    rw [initParts_append _ _ (splitNl_ne_nil _), lastPart_append _ _ (splitNl_ne_nil _)]
    rw [processLines_append]
    dsimp only
    by_cases hFA :
        (processLines (initParts (splitNl (buf ++ (stripBom bom (decodeChunk u a).2).2)))).2
          = true
    · simp [hFA, stepChunk]
    · have hFA' :
          (processLines (initParts (splitNl (buf ++ (stripBom bom (decodeChunk u a).2).2)))).2
            = false := by
        revert hFA
        cases (processLines (initParts (splitNl (buf ++ (stripBom bom (decodeChunk u a).2).2)))).2 <;>
          simp
      simp [hFA', stepChunk]

/-- Whether the pending line buffer is newline-free; holds for the initial
state and is preserved by every chunk step. -/
def bufOk : SState → Prop
  | SState.finished => True
  | SState.running _ _ buf => '\n' ∉ buf

theorem stepChunk_bufOk (s : SState) (bs : List Nat) : bufOk (stepChunk s bs).1 := by
  cases s with
  | finished => simp [stepChunk, bufOk]
  | running u bom buf =>
    simp only [stepChunk]
    by_cases h :
        (processLines (initParts (splitNl (buf ++ (stripBom bom (decodeChunk u bs).2).2)))).2
          = true
    · simp [h, bufOk]
    · have h' :
          (processLines (initParts (splitNl (buf ++ (stripBom bom (decodeChunk u bs).2).2)))).2
            = false := by
        revert h
        cases (processLines (initParts (splitNl (buf ++ (stripBom bom (decodeChunk u bs).2).2)))).2 <;>
          simp
      simp [h', bufOk, no_nl_lastPart]

theorem stepChunk_nil (s : SState) (h : bufOk s) : stepChunk s [] = (s, []) := by
  cases s with
  | finished => rfl
  | running u bom buf =>
    have hb : '\n' ∉ buf := h
    have hsb : stripBom bom ([] : List Char) = (bom, []) := by
      cases bom <;> rfl
    simp only [stepChunk, decodeChunk, hsb]
    rw [List.append_nil, splitNl_no_nl buf hb]
    simp [initParts, lastPart, processLines]

theorem runChunksSt_finished (cs : List (List Nat)) :
    runChunksSt SState.finished cs = (SState.finished, []) := by
  induction cs with
  | nil => rfl
  | cons c t ih => simp [runChunksSt, stepChunk, ih]

theorem runChunksSt_join (s : SState) (cs : List (List Nat)) (h : bufOk s) :
    runChunksSt s cs = stepChunk s cs.flatten := by
  induction cs generalizing s with
  | nil => simp [runChunksSt, stepChunk_nil s h]
  | cons c t ih =>
    simp only [runChunksSt, List.flatten_cons]
    rw [stepChunk_append s c t.flatten, ih _ (stepChunk_bufOk s c)]

theorem runSrc_chunks (s : SState) (cs : List (List Nat)) :
    runSrc s (cs.map SrcItem.chunk) = ((runChunksSt s cs).2, Outcome.ok) := by
  induction cs generalizing s with
  | nil => simp [runSrc, runChunksSt]
  | cons c t ih =>
    by_cases h : (stepChunk s c).1 = SState.finished
    · simp [runSrc, runChunksSt, h, ih, runChunksSt_finished]
    · simp [runSrc, runChunksSt, h, ih]

theorem runSrc_chunks_then_fail (s : SState) (cs : List (List Nat)) (rest : List SrcItem)
    (h : (runChunksSt s cs).1 ≠ SState.finished) :
    runSrc s (cs.map SrcItem.chunk ++ SrcItem.fail :: rest)
      = ((runChunksSt s cs).2, Outcome.error) := by
  induction cs generalizing s with
  | nil => simp [runSrc, runChunksSt]
  | cons c t ih =>
    by_cases hc : (stepChunk s c).1 = SState.finished
    · exfalso
      apply h
      simp [runChunksSt, hc, runChunksSt_finished]
    · have h2 : (runChunksSt (stepChunk s c).1 t).1 ≠ SState.finished := by
        intro e
        apply h
        simp [runChunksSt, e]
      simp only [List.map_cons, List.cons_append, runSrc, List.append_eq]
      rw [if_neg hc, ih _ h2]
      simp [runChunksSt]

/-! ### Trim lemmas -/

theorem dropWhile_ws_all (w r : List Char) (hw : ∀ c ∈ w, isJsWs c = true) :
    (w ++ r).dropWhile isJsWs = r.dropWhile isJsWs := by
  induction w with
  | nil => simp
  | cons c t ih =>
    have hc : isJsWs c = true := hw c (by simp)
    rw [List.cons_append, List.dropWhile_cons, if_pos hc]
    exact ih fun d hd => hw d (by simp [hd])

theorem dropWhile_ws_head (c : Char) (r : List Char) (hc : isJsWs c = false) :
    (c :: r).dropWhile isJsWs = c :: r := by
  rw [List.dropWhile_cons, if_neg (by simp [hc])]

theorem jsTrim_pad (w1 w2 m : List Char)
    (hw1 : ∀ x ∈ w1, isJsWs x = true) (hw2 : ∀ x ∈ w2, isJsWs x = true)
    (hh : ∀ c ∈ m.head?, isJsWs c = false) (hl : ∀ c ∈ m.getLast?, isJsWs c = false)
    (hm : m ≠ []) :
    jsTrim (w1 ++ (m ++ w2)) = m := by
  unfold jsTrim
  rw [dropWhile_ws_all w1 (m ++ w2) hw1]
  obtain ⟨c, t, rfl⟩ := List.exists_cons_of_ne_nil hm
  have hc : isJsWs c = false := hh c (by simp)
  rw [List.cons_append, dropWhile_ws_head c (t ++ w2) hc, ← List.cons_append,
    List.reverse_append]
  rw [dropWhile_ws_all w2.reverse (c :: t).reverse
    (fun x hx => hw2 x (List.mem_reverse.mp hx))]
  have h2 : (c :: t).reverse.dropWhile isJsWs = (c :: t).reverse := by
    rcases hr : (c :: t).reverse with _ | ⟨d, r⟩
    · rfl
    · have hd : (c :: t).getLast? = some d := by
        rw [← List.head?_reverse, hr]
        rfl
      have hwd : isJsWs d = false := hl d (by simp [hd])
      rw [dropWhile_ws_head d r hwd]
  rw [h2, List.reverse_reverse]

theorem jsTrim_eq_self (m : List Char) (hm : m ≠ [])
    (hh : ∀ c ∈ m.head?, isJsWs c = false) (hl : ∀ c ∈ m.getLast?, isJsWs c = false) :
    jsTrim m = m := by
  have := jsTrim_pad [] [] m (by simp) (by simp) hh hl hm
  simpa using this

theorem dropWhile_eq_self_of_length (l : List Char)
    (h : (l.dropWhile isJsWs).length = l.length) : l.dropWhile isJsWs = l := by
  cases l with
  | nil => rfl
  | cons c t =>
    by_cases hc : isJsWs c = true
    · exfalso
      rw [List.dropWhile_cons, if_pos hc] at h
      have := (List.dropWhile_sublist (l := t) isJsWs).length_le
      simp at h
      omega
    · rw [List.dropWhile_cons, if_neg (by simpa using hc)]

theorem head_not_ws_of_dropWhile_self (l : List Char) (h : l.dropWhile isJsWs = l) :
    ∀ c ∈ l.head?, isJsWs c = false := by
  cases l with
  | nil => simp
  | cons c t =>
    intro d hd
    have hdc : c = d := by simpa using hd
    rw [← hdc]
    by_cases hc : isJsWs c = true
    · exfalso
      rw [List.dropWhile_cons, if_pos hc] at h
      have h1 := (List.dropWhile_sublist (l := t) isJsWs).length_le
      have h2 := congrArg List.length h
      simp at h2
      omega
    · simpa using hc

theorem trim_self_facts (p : List Char) (hp : jsTrim p = p) :
    (∀ c ∈ p.head?, isJsWs c = false) ∧ (∀ c ∈ p.getLast?, isJsWs c = false) := by
  have hlen1 := (List.dropWhile_sublist (l := p) isJsWs).length_le
  have hlen2 :=
    (List.dropWhile_sublist (l := (p.dropWhile isJsWs).reverse) isJsWs).length_le
  have hlen0 : (jsTrim p).length = p.length := by rw [hp]
  have hJ : (jsTrim p).length
      = ((p.dropWhile isJsWs).reverse.dropWhile isJsWs).length := by
    simp [jsTrim]
  have e1 : (p.dropWhile isJsWs).length = p.length := by
    simp only [List.length_reverse] at hlen2
    omega
  have h1 : p.dropWhile isJsWs = p := dropWhile_eq_self_of_length p e1
  have h2 : p.reverse.dropWhile isJsWs = p.reverse := by
    have hq : jsTrim p = (p.reverse.dropWhile isJsWs).reverse := by
      unfold jsTrim
      rw [h1]
    rw [hp] at hq
    have := congrArg List.reverse hq
    simpa using this.symm
  refine ⟨head_not_ws_of_dropWhile_self p h1, ?_⟩
  intro c hc
  have hcr : c ∈ p.reverse.head? := by
    rw [List.head?_reverse]
    exact hc
  exact head_not_ws_of_dropWhile_self p.reverse h2 c hcr

theorem jsTrim_dataLine (p : List Char) (hne : p ≠ []) (hts : jsTrim p = p) :
    jsTrim (dataHeader ++ p) = dataHeader ++ p := by
  obtain ⟨hh, hl⟩ := trim_self_facts p hts
  apply jsTrim_eq_self _ (by simp [dataHeader])
  · intro c hc
    have hcd : 'd' = c := by simpa [dataHeader] using hc
    rw [← hcd]
    decide
  · intro c hc
    rw [List.getLast?_append_of_ne_nil _ hne] at hc
    exact hl c hc

theorem jsTrim_cons_ws (c : Char) (x : List Char) (h : isJsWs c = true) :
    jsTrim (c :: x) = jsTrim x := by
  unfold jsTrim
  rw [List.dropWhile_cons, if_pos h]

/-! ### Per-line processing lemmas -/

theorem beginsWith_self_append (px r : List Char) : beginsWith px (px ++ r) = true := by
  induction px with
  | nil => rfl
  | cons c t ih => simp [beginsWith, ih]

theorem jsonParse_sentinel : jsonParse doneSentinel = none := rfl

theorem goodPayload_sentinel : goodPayload doneSentinel := by
  refine ⟨by decide, rfl, by decide⟩

theorem processLines_skip_cons (l : List Char) (ls : List (List Char))
    (h : jsTrim l = [] ∨ beginsWith dataHeader (jsTrim l) = false) :
    processLines (l :: ls) = processLines ls := by
  rcases h with h | h
  · simp [processLines, h]
  · by_cases h1 : jsTrim l = []
    · simp [processLines, h1]
    · simp [processLines, h1, h]

theorem processLines_congr_head (x y : List Char) (ls : List (List Char))
    (h : jsTrim x = jsTrim y) :
    processLines (x :: ls) = processLines (y :: ls) := by
  simp only [processLines, h]

theorem processLines_data_cons (p : List Char) (ls : List (List Char)) (hp : goodPayload p) :
    processLines ((dataHeader ++ p) :: ls) =
      if p = doneSentinel then ([], true)
      else
        match jsonParse p with
        | some j => (Ev.record j :: (processLines ls).1, (processLines ls).2)
        | none => (Ev.warn p :: (processLines ls).1, (processLines ls).2) := by
  obtain ⟨hne, hts, -⟩ := hp
  have htr : jsTrim (dataHeader ++ p) = dataHeader ++ p := jsTrim_dataLine p hne hts
  have hd6 : (dataHeader ++ p).drop 6 = p := rfl
  simp only [processLines, htr, beginsWith_self_append, hd6, if_true]
  rw [if_neg (show ¬ dataHeader ++ p = [] by simp [dataHeader])]

/-! ### Run-level helpers -/

theorem run_single_chunk (bytes : List Nat) :
    StreamChatCompletion [SrcItem.chunk bytes]
      = ((stepChunk initState bytes).2, Outcome.ok) := by
  have h : [SrcItem.chunk bytes] = List.map SrcItem.chunk [bytes] := rfl
  rw [StreamChatCompletion, h, runSrc_chunks]
  simp [runChunksSt, runChunksSt_finished]

theorem decodeChunk_init_enc_append (t : List Char) (rest : List Nat) :
    decodeChunk Utf8State.init (utf8Encode t ++ rest)
      = ((decodeChunk Utf8State.init rest).1,
          t ++ (decodeChunk Utf8State.init rest).2) := by
  rw [decodeChunk_append, decode_encode]

theorem stripBom_false_of_head (t : List Char) (hne : t ≠ [])
    (h : ∀ c ∈ t.head?, c ≠ '﻿') : stripBom false t = (true, t) := by
  obtain ⟨c, r, rfl⟩ := List.exists_cons_of_ne_nil hne
  have hc : c ≠ '﻿' := h c (by simp)
  simp [stripBom, hc]

/-- Effect of the byte-order-mark removal on the first chunk's text. -/
def stripLead : List Char → List Char
  | [] => []
  | c :: t => if c = '﻿' then t else c :: t

theorem stripBom_false_stripLead (t : List Char) :
    (stripBom false t).2 = stripLead t := by
  cases t with
  | nil => rfl
  | cons c r => by_cases hc : c = '﻿' <;> simp [stripBom, stripLead, hc]

theorem events_of_enc (t : List Char) :
    (stepChunk initState (utf8Encode t)).2
      = (processLines (initParts (splitNl (stripLead t)))).1 := by
  simp only [initState, stepChunk]
  rw [decode_encode]
  dsimp only
  rw [stripBom_false_stripLead, List.nil_append]

theorem stripLead_append_nl (l rest : List Char) :
    stripLead (l ++ '\n' :: rest) = stripLead l ++ '\n' :: rest := by
  cases l with
  | nil => simp [stripLead]
  | cons c t => by_cases hc : c = '﻿' <;> simp [stripLead, hc]

theorem not_mem_stripLead (a : Char) (l : List Char) (h : a ∉ l) : a ∉ stripLead l := by
  cases l with
  | nil => simp [stripLead]
  | cons c t =>
    by_cases hc : c = '﻿'
    · simp only [stripLead, if_pos hc]
      intro hm
      exact h (List.mem_cons_of_mem _ hm)
    · simpa [stripLead, hc] using h

theorem jsTrim_stripLead (l : List Char) : jsTrim (stripLead l) = jsTrim l := by
  cases l with
  | nil => rfl
  | cons c t =>
    by_cases hc : c = '﻿'
    · subst hc
      simp only [stripLead, if_pos rfl]
      exact (jsTrim_cons_ws _ _ (by decide)).symm
    · simp [stripLead, hc]

theorem processLines_splitNl_stripLead (r : List Char) :
    processLines (initParts (splitNl (stripLead r)))
      = processLines (initParts (splitNl r)) := by
  cases r with
  | nil => rfl
  | cons c t =>
    by_cases hc : c = '﻿'
    · subst hc
      rcases h : splitNl t with _ | ⟨p, ps⟩
      · exact absurd h (splitNl_ne_nil t)
      · have h2 : splitNl ('﻿' :: t) = ('﻿' :: p) :: ps := by
          simp [splitNl, show ('﻿' : Char) ≠ '\n' by decide, h]
        have h3 : stripLead ('﻿' :: t) = t := by simp [stripLead]
        rw [h3, h, h2]
        cases ps with
        | nil => rfl
        | cons q qs =>
          rw [initParts_cons p (q :: qs) (by simp),
            initParts_cons ('﻿' :: p) (q :: qs) (by simp)]
          exact (processLines_congr_head _ _ _ (jsTrim_cons_ws '﻿' p (by decide))).symm
    · simp [stripLead, hc]

theorem processLines_cons_eq (l : List Char) (t : List (List Char)) :
    processLines (l :: t) =
      if jsTrim l = [] then processLines t
      else if beginsWith dataHeader (jsTrim l) = true then
        if (jsTrim l).drop 6 = doneSentinel then ([], true)
        else
          match jsonParse ((jsTrim l).drop 6) with
          | some j => (Ev.record j :: (processLines t).1, (processLines t).2)
          | none => (Ev.warn ((jsTrim l).drop 6) :: (processLines t).1, (processLines t).2)
      else processLines t := rfl

theorem recordsOf_processLines (ls : List (List Char)) :
    recordsOf (processLines ls).1
      = (((ls.filter isDataLine).map linePayload).takeWhile
          (fun q => decide (q ≠ doneSentinel))).filterMap jsonParse := by
  induction ls with
  | nil => rfl
  | cons l t ih =>
    by_cases h1 : jsTrim l = []
    · have hd : isDataLine l = false := by
        simp [isDataLine, h1, beginsWith, dataHeader]
      rw [processLines_skip_cons _ _ (Or.inl h1)]
      simp [hd, ih]
    · by_cases h2 : beginsWith dataHeader (jsTrim l) = true
      · have hd : isDataLine l = true := by simp [isDataLine, h2]
        by_cases h3 : (jsTrim l).drop 6 = doneSentinel
        · have hpl : processLines (l :: t) = ([], true) := by
            rw [processLines_cons_eq, if_neg h1, if_pos h2, if_pos h3]
          rw [hpl]
          simp [recordsOf, hd, linePayload, h3]
        · rcases hj : jsonParse ((jsTrim l).drop 6) with _ | j
          · have hpl : processLines (l :: t)
                = (Ev.warn ((jsTrim l).drop 6) :: (processLines t).1,
                    (processLines t).2) := by
              rw [processLines_cons_eq, if_neg h1, if_pos h2, if_neg h3, hj]
            rw [hpl]
            simpa [recordsOf, hd, linePayload, h3, hj] using ih
          · have hpl : processLines (l :: t)
                = (Ev.record j :: (processLines t).1, (processLines t).2) := by
              rw [processLines_cons_eq, if_neg h1, if_pos h2, if_neg h3, hj]
            rw [hpl]
            simpa [recordsOf, hd, linePayload, h3, hj] using ih
      · have h2' : beginsWith dataHeader (jsTrim l) = false := by
          revert h2
          cases beginsWith dataHeader (jsTrim l) <;> simp
        have hd : isDataLine l = false := by simp [isDataLine, h2']
        rw [processLines_skip_cons _ _ (Or.inr h2')]
        simp [hd, ih]

theorem stripBom_false_fst (t : List Char) (hne : t ≠ []) : (stripBom false t).1 = true := by
  obtain ⟨c, r, rfl⟩ := List.exists_cons_of_ne_nil hne
  by_cases hc : c = '﻿' <;> simp [stripBom, hc]

theorem stepChunk_init_enc_state (t : List Char) (hne : t ≠ []) :
    (stepChunk initState (utf8Encode t)).1 = SState.finished ∨
      ∃ buf, (stepChunk initState (utf8Encode t)).1
          = SState.running Utf8State.init true buf ∧ '\n' ∉ buf := by
  simp only [initState, stepChunk]
  rw [decode_encode]
  dsimp only
  rw [List.nil_append]
  by_cases h : (processLines (initParts (splitNl (stripBom false t).2))).2 = true
  · left
    simp [h]
  · right
    refine ⟨lastPart (splitNl (stripBom false t).2), ?_, no_nl_lastPart _⟩
    have h' : (processLines (initParts (splitNl (stripBom false t).2))).2 = false := by
      revert h
      cases (processLines (initParts (splitNl (stripBom false t).2))).2 <;> simp
    simp [h', stripBom_false_fst t hne]

theorem stepChunk_enc_no_nl (s : SState) (frag : List Char) (hf : '\n' ∉ frag)
    (hs : s = SState.finished ∨
      ∃ buf, s = SState.running Utf8State.init true buf ∧ '\n' ∉ buf) :
    (stepChunk s (utf8Encode frag)).2 = [] := by
  rcases hs with rfl | ⟨buf, rfl, hb⟩
  · rfl
  · simp only [stepChunk]
    rw [decode_encode]
    dsimp only
    have hsb : stripBom true frag = (true, frag) := rfl
    rw [hsb]
    dsimp only
    have hnn : '\n' ∉ buf ++ frag := by
      intro hm
      rcases List.mem_append.mp hm with hm | hm
      · exact hb hm
      · exact hf hm
    rw [splitNl_no_nl _ hnn]
    rfl

theorem no_nl_dataLine (p : List Char) (hp : '\n' ∉ p) : '\n' ∉ dataHeader ++ p := by
  intro hm
  rcases List.mem_append.mp hm with hm | hm
  · simp [dataHeader] at hm
  · exact hp hm

theorem splitNl_dataLine (p r : List Char) (hp : '\n' ∉ p) :
    splitNl (mkDataLine p ++ r) = (dataHeader ++ p) :: splitNl r := by
  have h : mkDataLine p ++ r = (dataHeader ++ p) ++ ('\n' :: r) := by
    simp [mkDataLine]
  rw [h, splitNl_cons_line _ _ (no_nl_dataLine p hp)]

theorem stripLead_dataText (x y : List Char) :
    stripLead (mkDataLine x ++ y) = mkDataLine x ++ y := by
  have h : mkDataLine x ++ y = 'd' :: (['a', 't', 'a', ':', ' '] ++ (x ++ '\n' :: y)) := by
    simp [mkDataLine, dataHeader]
  rw [h]
  simp [stripLead, show ('d' : Char) ≠ '﻿' by decide]

/-! ### Claim theorems -/

/-- C1: Chunk-boundary invariance. For every byte sequence and every way of
splitting it into delivered buffers at any byte offsets (including inside a
multi-byte UTF-8 character, inside the `'data: '` prefix, or inside the JSON
payload), `StreamChatCompletion` produces output identical to the one
produced when the same bytes are delivered as one single buffer (events —
records and warnings — and outcome alike, hence in particular the same
Record sequence). -/
theorem chunk_boundary_invariance (chunks : List (List Nat)) :
    StreamChatCompletion (chunks.map SrcItem.chunk)
      = StreamChatCompletion [SrcItem.chunk chunks.flatten] := by
  have h1 : [SrcItem.chunk chunks.flatten]
      = List.map SrcItem.chunk [chunks.flatten] := rfl
  simp only [StreamChatCompletion]
  rw [h1, runSrc_chunks, runSrc_chunks,
    runChunksSt_join _ _ (by simp [bufOk, initState]),
    runChunksSt_join _ _ (by simp [bufOk, initState])]
  simp

/-- C3: Ordering invariant. For every input byte stream, the Records emitted
by `StreamChatCompletion` are exactly, and in exactly the order of, the
successful parses of the payloads of the data-prefixed Lines of the byte
stream, cut off at the first sentinel payload — no reordering, no batching,
no Record for a malformed payload or for the sentinel (`specRecords` is the
spec-side order-preserving pipeline). -/
theorem record_order_matches_lines (chunks : List (List Nat)) :
    recordsOf (StreamChatCompletion (chunks.map SrcItem.chunk)).1
      = specRecords chunks.flatten := by
  simp only [StreamChatCompletion]
  rw [runSrc_chunks, runChunksSt_join _ _ (by simp [bufOk, initState])]
  simp only [initState, stepChunk]
  rw [List.nil_append, recordsOf_processLines]
  simp only [specRecords, streamLines, decodedText]

/-- C7: Transport-failure propagation. If the byte source fails abnormally
after delivering some chunks (and the sentinel has not terminated the
stream), the consumer observes exactly the Records already emitted followed
by a stream-terminating error, and nothing after it; content-level anomalies
never produce this error (they are covered by the other claims). -/
theorem transport_failure_propagates (cs : List (List Nat)) (rest : List SrcItem)
    (h : (runChunksSt initState cs).1 ≠ SState.finished) :
    StreamChatCompletion (cs.map SrcItem.chunk ++ SrcItem.fail :: rest)
      = ((StreamChatCompletion (cs.map SrcItem.chunk)).1, Outcome.error) := by
  simp only [StreamChatCompletion]
  rw [runSrc_chunks_then_fail _ _ _ h, runSrc_chunks]

/-- C6: Clean end-of-stream without sentinel. If the byte source ends
cleanly, the decoder yields all Records parsed so far and ends without
error; a non-empty trailing line fragment never terminated by a newline is
discarded at stream end — appending it changes nothing, and no synthetic
newline is injected. -/
theorem clean_end_without_sentinel (t frag : List Char) (hf : '\n' ∉ frag) :
    StreamChatCompletion [SrcItem.chunk (utf8Encode (t ++ '\n' :: frag))]
      = StreamChatCompletion [SrcItem.chunk (utf8Encode (t ++ ['\n']))] ∧
      (StreamChatCompletion [SrcItem.chunk (utf8Encode (t ++ '\n' :: frag))]).2
        = Outcome.ok := by
  have henc : utf8Encode (t ++ '\n' :: frag)
      = utf8Encode (t ++ ['\n']) ++ utf8Encode frag := by
    rw [← utf8Encode_append]
    simp
  have hst := stepChunk_init_enc_state (t ++ ['\n']) (by simp)
  have hz : (stepChunk (stepChunk initState (utf8Encode (t ++ ['\n']))).1
      (utf8Encode frag)).2 = [] := stepChunk_enc_no_nl _ frag hf hst
  constructor
  · rw [run_single_chunk, run_single_chunk, henc, stepChunk_append, hz]
    simp
  · rw [run_single_chunk]

/-- C8: Silent drop of non-data lines. A complete Line that is empty after
trimming, or that does not carry the `'data: '` prefix after trimming, is
dropped silently: it contributes no Record, no warning and no error, and
processing continues with the following input exactly as if the line had
not been there. -/
theorem silent_drop_non_data (l rest : List Char) (hnl : '\n' ∉ l)
    (h : jsTrim l = [] ∨ beginsWith dataHeader (jsTrim l) = false) :
    StreamChatCompletion [SrcItem.chunk (utf8Encode (l ++ '\n' :: rest))]
      = StreamChatCompletion [SrcItem.chunk (utf8Encode rest)] := by
  rw [run_single_chunk, run_single_chunk]
  have h' : jsTrim (stripLead l) = []
      ∨ beginsWith dataHeader (jsTrim (stripLead l)) = false := by
    rw [jsTrim_stripLead]
    exact h
  have he : (stepChunk initState (utf8Encode (l ++ '\n' :: rest))).2
      = (stepChunk initState (utf8Encode rest)).2 := by
    rw [events_of_enc, events_of_enc, stripLead_append_nl,
      splitNl_cons_line _ _ (not_mem_stripLead _ _ hnl),
      initParts_cons _ _ (splitNl_ne_nil _),
      processLines_skip_cons _ _ h',
      processLines_splitNl_stripLead]
  rw [he]

/-- C10: Whitespace-tolerant framing. Every complete line is trimmed before
prefix matching, sentinel comparison and payload extraction: surrounding the
`'data: '` prefix and payload with any newline-free JavaScript whitespace —
leading whitespace before the prefix, or trailing whitespace such as the
`'\r'` of a CRLF line ending — leaves the output unchanged; in particular
CRLF streams behave exactly like LF-only streams, for payload and sentinel
lines alike. -/
theorem whitespace_tolerant_framing (w1 w2 p rest : List Char)
    (hw1 : ∀ x ∈ w1, isJsWs x = true ∧ x ≠ '\n')
    (hw2 : ∀ x ∈ w2, isJsWs x = true ∧ x ≠ '\n')
    (hp : goodPayload p) :
    StreamChatCompletion
        [SrcItem.chunk (utf8Encode ((w1 ++ (dataHeader ++ p ++ w2)) ++ '\n' :: rest))]
      = StreamChatCompletion
        [SrcItem.chunk (utf8Encode ((dataHeader ++ p) ++ '\n' :: rest))] := by
  obtain ⟨hne, hts, hnp⟩ := hp
  obtain ⟨hph, hpl⟩ := trim_self_facts p hts
  have hnl1 : '\n' ∉ w1 ++ (dataHeader ++ p ++ w2) := by
    intro hm
    rcases List.mem_append.mp hm with hm | hm
    · exact (hw1 _ hm).2 rfl
    · rcases List.mem_append.mp hm with hm | hm
      · exact no_nl_dataLine p hnp hm
      · exact (hw2 _ hm).2 rfl
  have hnl2 : '\n' ∉ dataHeader ++ p := no_nl_dataLine p hnp
  have htr1 : jsTrim (w1 ++ (dataHeader ++ p ++ w2)) = dataHeader ++ p := by
    have hsh : w1 ++ (dataHeader ++ p ++ w2) = w1 ++ ((dataHeader ++ p) ++ w2) := by
      simp [List.append_assoc]
    rw [hsh]
    apply jsTrim_pad w1 w2 (dataHeader ++ p) (fun x hx => (hw1 x hx).1)
      (fun x hx => (hw2 x hx).1)
    · intro c hc
      have hcd : 'd' = c := by simpa [dataHeader] using hc
      rw [← hcd]
      decide
    · intro c hc
      rw [List.getLast?_append_of_ne_nil _ hne] at hc
      exact hpl c hc
    · simp [dataHeader]
  have htr2 : jsTrim (dataHeader ++ p) = dataHeader ++ p := jsTrim_dataLine p hne hts
  rw [run_single_chunk, run_single_chunk]
  have he : (stepChunk initState
        (utf8Encode ((w1 ++ (dataHeader ++ p ++ w2)) ++ '\n' :: rest))).2
      = (stepChunk initState (utf8Encode ((dataHeader ++ p) ++ '\n' :: rest))).2 := by
    rw [events_of_enc, events_of_enc, stripLead_append_nl, stripLead_append_nl,
      splitNl_cons_line _ _ (not_mem_stripLead _ _ hnl1),
      splitNl_cons_line _ _ (not_mem_stripLead _ _ hnl2),
      initParts_cons _ _ (splitNl_ne_nil _), initParts_cons _ _ (splitNl_ne_nil _)]
    have hcongr := processLines_congr_head
      (stripLead (w1 ++ (dataHeader ++ p ++ w2))) (stripLead (dataHeader ++ p))
      (initParts (splitNl rest))
      (by rw [jsTrim_stripLead, jsTrim_stripLead, htr1, htr2])
    rw [hcongr]
  rw [he]

instance goodPayloadDec (p : List Char) : Decidable (goodPayload p) := by
  unfold goodPayload
  infer_instance

theorem ne_sentinel_of_parse (p : List Char) (j : Json) (h : jsonParse p = some j) :
    p ≠ doneSentinel := by
  intro e
  rw [e, jsonParse_sentinel] at h
  cases h

theorem data_line_record (p : List Char) (j : Json) (hp : goodPayload p)
    (hj : jsonParse p = some j) :
    StreamChatCompletion [SrcItem.chunk (utf8Encode (mkDataLine p))]
      = ([Ev.record j], Outcome.ok) := by
  rw [run_single_chunk]
  have he : (stepChunk initState (utf8Encode (mkDataLine p))).2 = [Ev.record j] := by
    rw [events_of_enc]
    have h0 : splitNl (stripLead (mkDataLine p)) = (dataHeader ++ p) :: splitNl [] := by
      rw [show mkDataLine p = mkDataLine p ++ [] from (List.append_nil _).symm,
        stripLead_dataText, splitNl_dataLine p [] hp.2.2]
    rw [h0, show splitNl ([] : List Char) = [[]] from rfl,
      initParts_cons _ _ (by simp), show initParts [([] : List Char)] = [] from rfl,
      processLines_data_cons p _ hp, if_neg (ne_sentinel_of_parse p j hj), hj]
    rfl
  rw [he]

/-- C5 counterexample: the payload `42` is syntactically well-formed JSON
whose shape does not match the `ChatCompletionChunk` schema (it is not even
an object), yet `StreamChatCompletion` emits it as a Record, with no
warning — the implementation performs no shape validation, contradicting
the claim that such payloads fail to parse and are warned about. -/
theorem shape_validation_counterexample :
    StreamChatCompletion [SrcItem.chunk (utf8Encode (mkDataLine ['4', '2']))]
      = ([Ev.record (Json.num ['4', '2'])], Outcome.ok) :=
  data_line_record ['4', '2'] (Json.num ['4', '2']) (by decide) rfl

/-- C5 (amended): the Record Parser validates only JSON syntax, not shape:
every data line whose payload is syntactically well-formed JSON — whatever
its shape — yields exactly one Record carrying the parsed value, and no
warning; only syntactically invalid JSON takes the warning path. -/
theorem shape_validation_amended (p : List Char) (j : Json) (hp : goodPayload p)
    (hj : jsonParse p = some j) :
    StreamChatCompletion [SrcItem.chunk (utf8Encode (mkDataLine p))]
      = ([Ev.record j], Outcome.ok) :=
  data_line_record p j hp hj

/-- C4: Parse-failure isolation. A data line whose payload is syntactically
invalid JSON, sandwiched between two valid data lines, yields exactly the
two valid Records in order, exactly one parse-failure warning (through the
observability side channel) for the invalid payload, no early termination,
and no error to the consumer. -/
theorem parse_failure_isolation (a b c : List Char) (ja jc : Json)
    (ha : jsonParse a = some ja) (hb : jsonParse b = none) (hc : jsonParse c = some jc)
    (hga : goodPayload a) (hgb : goodPayload b) (hgc : goodPayload c)
    (hbs : b ≠ doneSentinel) :
    StreamChatCompletion
        [SrcItem.chunk (utf8Encode (mkDataLine a ++ (mkDataLine b ++ mkDataLine c)))]
      = ([Ev.record ja, Ev.warn b, Ev.record jc], Outcome.ok) := by
  rw [run_single_chunk]
  have he : (stepChunk initState
      (utf8Encode (mkDataLine a ++ (mkDataLine b ++ mkDataLine c)))).2
      = [Ev.record ja, Ev.warn b, Ev.record jc] := by
    rw [events_of_enc, stripLead_dataText, splitNl_dataLine a _ hga.2.2,
      splitNl_dataLine b (mkDataLine c) hgb.2.2]
    have h3 : splitNl (mkDataLine c) = (dataHeader ++ c) :: splitNl [] := by
      rw [show mkDataLine c = mkDataLine c ++ [] from (List.append_nil _).symm,
        splitNl_dataLine c [] hgc.2.2]
    rw [h3, show splitNl ([] : List Char) = [[]] from rfl,
      initParts_cons _ _ (by simp), initParts_cons _ _ (by simp),
      initParts_cons _ _ (by simp), show initParts [([] : List Char)] = [] from rfl,
      processLines_data_cons a _ hga, if_neg (ne_sentinel_of_parse a ja ha), ha]
    dsimp only
    rw [processLines_data_cons b _ hgb, if_neg hbs, hb]
    dsimp only
    rw [processLines_data_cons c _ hgc, if_neg (ne_sentinel_of_parse c jc hc), hc]
    rfl
  rw [he]

/-- C2: Sentinel termination. On the input lines `data: A`, `data: B`,
`data: [DONE]` (A and B valid JSON payloads), `StreamChatCompletion` yields
exactly the two Records for A then B, in that order, then terminates
successfully and immediately without emitting anything for the sentinel —
arbitrary bytes after `[DONE]` inside the same chunk (`rest`, even invalid
UTF-8) and arbitrary further source items (`more`, even a transport
failure) are never processed and never affect the output. -/
theorem sentinel_termination (a b : List Char) (ja jb : Json) (rest : List Nat)
    (more : List SrcItem) (ha : jsonParse a = some ja) (hb : jsonParse b = some jb)
    (hga : goodPayload a) (hgb : goodPayload b) :
    StreamChatCompletion
        (SrcItem.chunk
          (utf8Encode (mkDataLine a ++ (mkDataLine b ++ mkDataLine doneSentinel)) ++ rest)
          :: more)
      = ([Ev.record ja, Ev.record jb], Outcome.ok) := by
  have hstep : stepChunk initState
      (utf8Encode (mkDataLine a ++ (mkDataLine b ++ mkDataLine doneSentinel)) ++ rest)
      = (SState.finished, [Ev.record ja, Ev.record jb]) := by
    simp only [initState, stepChunk]
    rw [decodeChunk_init_enc_append]
    dsimp only
    rw [List.nil_append, stripBom_false_stripLead, List.append_assoc,
      stripLead_dataText, splitNl_dataLine a _ hga.2.2, List.append_assoc,
      splitNl_dataLine b _ hgb.2.2,
      splitNl_dataLine doneSentinel _ goodPayload_sentinel.2.2,
      initParts_cons _ _ (by simp), initParts_cons _ _ (by simp),
      initParts_cons _ _ (splitNl_ne_nil _),
      processLines_data_cons a _ hga, if_neg (ne_sentinel_of_parse a ja ha), ha]
    dsimp only
    rw [processLines_data_cons b _ hgb, if_neg (ne_sentinel_of_parse b jb hb), hb]
    dsimp only
    rw [processLines_data_cons doneSentinel _ goodPayload_sentinel, if_pos rfl]
    simp
  simp only [StreamChatCompletion, runSrc, hstep]
  simp

/-! ### Witnesses -/

/-- Witness for C2 at concrete inputs: payloads `1` and `[2]`, followed by
a raw `0xFF` byte after the sentinel line and a subsequent transport
failure, none of which is ever processed. -/
theorem sentinel_termination_witness :
    StreamChatCompletion
        (SrcItem.chunk
          (utf8Encode (mkDataLine ['1']
            ++ (mkDataLine ['[', '2', ']'] ++ mkDataLine doneSentinel)) ++ [0xFF])
          :: [SrcItem.fail])
      = ([Ev.record (Json.num ['1']), Ev.record (Json.arr [Json.num ['2']])],
          Outcome.ok) :=
  sentinel_termination ['1'] ['[', '2', ']'] (Json.num ['1'])
    (Json.arr [Json.num ['2']]) [0xFF] [SrcItem.fail] rfl rfl (by decide) (by decide)

/-- Witness for C4 at concrete inputs: valid `1`, invalid `nope`, valid
`true`. -/
theorem parse_failure_isolation_witness :
    StreamChatCompletion
        [SrcItem.chunk (utf8Encode (mkDataLine ['1']
          ++ (mkDataLine ['n', 'o', 'p', 'e'] ++ mkDataLine ['t', 'r', 'u', 'e'])))]
      = ([Ev.record (Json.num ['1']), Ev.warn ['n', 'o', 'p', 'e'],
          Ev.record (Json.bool true)], Outcome.ok) :=
  parse_failure_isolation ['1'] ['n', 'o', 'p', 'e'] ['t', 'r', 'u', 'e']
    (Json.num ['1']) (Json.bool true) rfl rfl rfl
    (by decide) (by decide) (by decide) (by decide)

/-- Witness for the amended C5 at the concrete wrong-shape payload `42`. -/
theorem shape_validation_amended_witness :
    StreamChatCompletion [SrcItem.chunk (utf8Encode (mkDataLine ['4', '2']))]
      = ([Ev.record (Json.num ['4', '2'])], Outcome.ok) :=
  shape_validation_amended ['4', '2'] (Json.num ['4', '2']) (by decide) rfl

/-- Witness for C6 at a concrete input: a complete `data: 1` line followed
by the never-terminated fragment `data: 2`. -/
theorem clean_end_without_sentinel_witness :
    StreamChatCompletion
        [SrcItem.chunk (utf8Encode ("data: 1".toList ++ '\n' :: "data: 2".toList))]
      = StreamChatCompletion [SrcItem.chunk (utf8Encode ("data: 1".toList ++ ['\n']))] ∧
      (StreamChatCompletion
        [SrcItem.chunk (utf8Encode ("data: 1".toList ++ '\n' :: "data: 2".toList))]).2
        = Outcome.ok :=
  clean_end_without_sentinel "data: 1".toList "data: 2".toList (by decide)

/-- Witness for C7 at a concrete input: one valid record, then the source
fails. -/
theorem transport_failure_propagates_witness :
    StreamChatCompletion
        (List.map SrcItem.chunk [utf8Encode (mkDataLine ['7'])] ++ SrcItem.fail :: [])
      = ((StreamChatCompletion
            (List.map SrcItem.chunk [utf8Encode (mkDataLine ['7'])])).1,
          Outcome.error) :=
  transport_failure_propagates [utf8Encode (mkDataLine ['7'])] [] (by decide)

/-- Witness for C8 at a concrete input: an SSE comment line `: ping`
before a valid data line. -/
theorem silent_drop_non_data_witness :
    StreamChatCompletion
        [SrcItem.chunk (utf8Encode (": ping".toList ++ '\n' :: "data: 5\n".toList))]
      = StreamChatCompletion [SrcItem.chunk (utf8Encode "data: 5\n".toList)] :=
  silent_drop_non_data ": ping".toList "data: 5\n".toList (by decide) (by decide)

/-- Witness for C10 at a concrete input: a CRLF-terminated sentinel line
(`data: [DONE]\r\n`) behaves exactly like the LF-only one. -/
theorem whitespace_tolerant_framing_witness :
    StreamChatCompletion
        [SrcItem.chunk (utf8Encode
          ((([] : List Char) ++ (dataHeader ++ doneSentinel ++ ['\r']))
            ++ '\n' :: "data: 9\n".toList))]
      = StreamChatCompletion
        [SrcItem.chunk (utf8Encode
          ((dataHeader ++ doneSentinel) ++ '\n' :: "data: 9\n".toList))] :=
  whitespace_tolerant_framing [] ['\r'] doneSentinel "data: 9\n".toList
    (by simp) (by decide) (by decide)
